import Mathlib

set_option maxRecDepth 8000

/-
Verification of the extraction/summarization core of `src/app.py`
(Report_Info_Local).  Python strings are embedded as `List Char`; the
regular expressions appearing in the source are hand-compiled into
structurally recursive scanners over character lists, restricted to the
ASCII behaviour of Python's character classes (`\s`, `\w`, `\d`), which
is the range all inputs of interest live in.  Scores are embedded exactly as
integer tenths of the floating-point scores of the source.
-/

abbrev PyStr := List Char

/-- Python's whitespace set (`str.isspace`, also the `\s` class of `re`). -/
def pyIsSpace (c : Char) : Bool :=
  c == ' ' || c == '\t' || c == '\n' || c == '\x0b' || c == '\x0c' || c == '\r' ||
  c == '\x1c' || c == '\x1d' || c == '\x1e' || c == '\x1f' || c == '\x85' ||
  c == '\u00A0' || c == '\u1680' || (decide ('\u2000' ≤ c) && decide (c ≤ '\u200A')) ||
  c == '\u2028' || c == '\u2029' || c == '\u202F' || c == '\u205F' || c == '\u3000'

/-- Python's word-character class `\w` (ASCII fragment). -/
def pyIsWord (c : Char) : Bool := c.isAlpha || c.isDigit || c == '_'

/-- ASCII lower-casing, as used by `str.lower` / `re.I` on the inputs at hand. -/
def pyLower (c : Char) : Char :=
  if 'A' ≤ c ∧ c ≤ 'Z' then Char.ofNat (c.toNat + 32) else c

/-- Case-sensitive "text begins with pattern". -/
def startsWithCS : PyStr → PyStr → Bool
  | [], _ => true
  | _ :: _, [] => false
  | p :: ps, c :: cs => (c == p) && startsWithCS ps cs

/-- Case-insensitive "text begins with pattern" (pattern given lower-case). -/
def startsWithCI : PyStr → PyStr → Bool
  | [], _ => true
  | _ :: _, [] => false
  | p :: ps, c :: cs => (pyLower c == p) && startsWithCI ps cs

/-- Case-insensitive substring search, i.e. `re.search` for a literal
pattern under `re.I`. -/
def containsCI (pat : PyStr) : PyStr → Bool
  | [] => pat.isEmpty
  | c :: cs => startsWithCI pat (c :: cs) || containsCI pat cs

/-- `re.search` for an alternation of literal patterns under `re.I`. -/
def anyContainsCI (pats : List PyStr) (s : PyStr) : Bool :=
  pats.any (fun p => containsCI p s)

/-- Strip a lower-case pattern from the front of the text, case-insensitively. -/
def dropCI : PyStr → PyStr → Option PyStr
  | [], t => some t
  | _ :: _, [] => none
  | p :: ps, c :: cs => if pyLower c == p then dropCI ps cs else none

/-- Split on a separator character, Python `str.split(sep)` semantics
(the empty string yields one empty piece). -/
def splitLines : List Char → List PyStr
  | [] => [[]]
  | c :: rest =>
    if c = '\n' then [] :: splitLines rest
    else
      match splitLines rest with
      | [] => [[c]]
      | w :: ws => (c :: w) :: ws

/-- Python `sep.join(pieces)`. -/
def joinSep (sep : PyStr) : List PyStr → PyStr
  | [] => []
  | [x] => x
  | x :: y :: rest => x ++ sep ++ joinSep sep (y :: rest)

/-- Python `str.lstrip()`. -/
def pyLStrip (l : PyStr) : PyStr := l.dropWhile pyIsSpace

/-- Python `str.rstrip()`. -/
def pyRStrip (l : PyStr) : PyStr := (l.reverse.dropWhile pyIsSpace).reverse

/-- Python `str.strip()`. -/
def pyStrip (l : PyStr) : PyStr := pyRStrip (pyLStrip l)

/-- Replace every maximal run of characters satisfying `p` by the single
character `r` (the `re.sub(cls ++ "+", r, ...)` idiom). -/
def collapseRuns (p : Char → Bool) (r : Char) : List Char → List Char
  | [] => []
  | [c] => if p c then [r] else [c]
  | c1 :: c2 :: rest =>
    if p c1 then
      if p c2 then collapseRuns p r (c2 :: rest)
      else r :: collapseRuns p r (c2 :: rest)
    else c1 :: collapseRuns p r (c2 :: rest)

/-- Accumulator version of Python `str.split()`: `cur` holds the current
word reversed. -/
def pySplitWsAux (cur : List Char) : List Char → List PyStr
  | [] => if cur.isEmpty then [] else [cur.reverse]
  | c :: rest =>
    if pyIsSpace c then
      if cur.isEmpty then pySplitWsAux [] rest
      else cur.reverse :: pySplitWsAux [] rest
    else pySplitWsAux (c :: cur) rest

/-- Python `str.split()` (no argument): split on whitespace runs,
discarding empty pieces. -/
def pySplitWs (l : List Char) : List PyStr := pySplitWsAux [] l

/-! ### TextNormalizer (`_normalize_whitespace`, app.py lines 39-43) -/

/-- `re.sub(r"\r\n|\r", "\n", text)`: normalize line endings. -/
def subCR : List Char → List Char
  | [] => []
  | [c] => if c = '\r' then ['\n'] else [c]
  | c1 :: c2 :: rest =>
    if c1 = '\r' then
      if c2 = '\n' then '\n' :: subCR rest else '\n' :: subCR (c2 :: rest)
    else c1 :: subCR (c2 :: rest)

/-- The `[\t\u00A0]` character class. -/
def isTabNbsp (c : Char) : Bool := c == '\t' || c == '\u00A0'

/-- `re.sub(r"[\t\u00A0]+", " ", text)`. -/
def subTabs (l : List Char) : List Char := collapseRuns isTabNbsp ' ' l

/-- `re.sub(r"\n{3,}", "\n\n", text)`: collapse runs of 3+ newlines to 2. -/
def subNl : List Char → List Char
  | [] => []
  | [c] => [c]
  | [c1, c2] => [c1, c2]
  | c1 :: c2 :: c3 :: rest =>
    if c1 = '\n' ∧ c2 = '\n' ∧ c3 = '\n' then subNl (c2 :: c3 :: rest)
    else c1 :: subNl (c2 :: c3 :: rest)

/-- `_normalize_whitespace` (app.py 39-43). `text or ""` is the identity
on strings in this total embedding. -/
def _normalize_whitespace (text : PyStr) : PyStr :=
  pyStrip (subNl (subTabs (subCR text)))

/-! ### `_strip_headers_footers` (app.py 46-66) -/

def HEADER_FOOTER_MAX_LINES : Nat := 4

/-- `re.search(r"^\s*\d+\s*$", ln)`: a standalone (page) number. -/
def pyNumericLine (ln : PyStr) : Bool :=
  let t := ln.dropWhile pyIsSpace
  let ds := t.takeWhile Char.isDigit
  !ds.isEmpty && (t.drop ds.length).all pyIsSpace

/-- The boilerplate keywords of `app.py` line 56, lower-case. -/
def kwList : List PyStr := ["page", "annual report", "confidential", "draft"].map (fun s => s.toList)

/-- Word-boundary check for the position before a keyword match
(all keywords start with a word character). -/
def prevBoundary : Option Char → Bool
  | none => true
  | some d => !pyIsWord d

/-- `\bkw\b` holds at the head of `t` (case-insensitive; the boundary in
front is checked by the caller). -/
def kwAt (kw : PyStr) (t : PyStr) : Bool :=
  match dropCI kw t with
  | some rest =>
    match rest.head? with
    | none => true
    | some d => !pyIsWord d
  | none => false

/-- `re.search(r"\b(page|annual report|confidential|draft)\b", ln, re.I)`,
scanning positions left to right with the preceding character in hand. -/
def kwSearchAux (kws : List PyStr) : Option Char → List Char → Bool
  | _, [] => false
  | prev, c :: cs =>
    (prevBoundary prev && kws.any (fun kw => kwAt kw (c :: cs))) || kwSearchAux kws (some c) cs

/-- `re.search(r"https?://", ln)`. -/
def urlSearch : List Char → Bool
  | [] => false
  | c :: cs =>
    startsWithCS ("http://".toList) (c :: cs) || startsWithCS ("https://".toList) (c :: cs) ||
      urlSearch cs

/-- `is_header_footer_line` (app.py 53-58). -/
def is_header_footer_line (ln : PyStr) : Bool :=
  pyNumericLine ln || kwSearchAux kwList none ln || urlSearch ln

/-- The per-line test actually applied to the top/bottom blocks
(app.py 60-61): `is_header_footer_line(ln) or len(ln) <= 2`. -/
def hfLineOrShort (ln : PyStr) : Bool := is_header_footer_line ln || decide (ln.length ≤ 2)

/-- `_strip_headers_footers` parameterized by the per-line boilerplate
test, so that the code's test and the spec's test instantiate the same
skeleton (app.py 46-66). -/
def stripHFWith (q : PyStr → Bool) (t : PyStr) : PyStr :=
  let lines := splitLines t
  if lines.length ≤ 2 * HEADER_FOOTER_MAX_LINES then t
  else
    let removeTop := (lines.take HEADER_FOOTER_MAX_LINES).all q
    let removeBottom := (lines.drop (lines.length - HEADER_FOOTER_MAX_LINES)).all q
    let lines1 := if removeTop then lines.drop HEADER_FOOTER_MAX_LINES else lines
    let lines2 := if removeBottom then lines1.take (lines1.length - HEADER_FOOTER_MAX_LINES) else lines1
    pyStrip (joinSep ['\n'] lines2)

/-- `_strip_headers_footers` (app.py 46-66). -/
def _strip_headers_footers (t : PyStr) : PyStr := stripHFWith hfLineOrShort t

/-! ### SentenceSegmenter (`_split_sentences`, app.py 130-137) -/

/-- The look-ahead character class `[A-Z(0-9)]` of the boundary regex in
`app.py` line 131.  Note that between the brackets it lists the range
`A-Z`, the character `(`, the range `0-9`, and the character `)`. -/
def codeBoundaryCls (c : Char) : Bool :=
  (decide ('A' ≤ c) && decide (c ≤ 'Z')) || c == '(' ||
    (decide ('0' ≤ c) && decide (c ≤ '9')) || c == ')'

/-- Modelled from the spec: the look-ahead class of §4.3 / claim C3 — "an
uppercase letter, digit, or opening parenthesis" (no closing parenthesis). -/
def specBoundaryCls (c : Char) : Bool :=
  (decide ('A' ≤ c) && decide (c ≤ 'Z')) ||
    (decide ('0' ≤ c) && decide (c ≤ '9')) || c == '('

/-- Modelled from the spec, amended: the look-ahead class with the closing
parenthesis added, matching the regex class written in the source. -/
def specBoundaryClsAmended (c : Char) : Bool :=
  (decide ('A' ≤ c) && decide (c ≤ 'Z')) ||
    (decide ('0' ≤ c) && decide (c ≤ '9')) || c == '(' || c == ')'

/-- `re.split(r"(?<=[.!?])\s+(?=cls)", text)`: accumulate the current part
(reversed); after a sentence-terminal punctuation mark, if a non-empty
whitespace run follows and the character after the run is in the class,
cut there (the run is consumed greedily; backtracking inside the run
cannot succeed because no whitespace character is in the class). -/
def sentSplitAux (cls : Char → Bool) : Bool → List Char → List Char → List PyStr
  | _, cur, [] => [cur.reverse]
  | skip, cur, c :: rest =>
    if skip && pyIsSpace c then sentSplitAux cls true cur rest
    else if c == '.' || c == '!' || c == '?' then
      let ws := rest.takeWhile pyIsSpace
      let after := rest.drop ws.length
      if 0 < ws.length ∧ (match after.head? with | some d => cls d | none => false) = true then
        (c :: cur).reverse :: sentSplitAux cls true [] rest
      else sentSplitAux cls false (c :: cur) rest
    else sentSplitAux cls false (c :: cur) rest

/-- Segmentation with a given boundary class: split, whitespace-collapse
and trim each part, keep parts of length at least 30 (app.py 130-137). -/
def segmentWithCls (cls : Char → Bool) (text : PyStr) : List PyStr :=
  ((sentSplitAux cls false [] text).map (fun s => pyStrip (collapseRuns pyIsSpace ' ' s))).filter
    (fun s => decide (30 ≤ s.length))

/-- `_split_sentences` (app.py 130-137). -/
def _split_sentences (text : PyStr) : List PyStr := segmentWithCls codeBoundaryCls text

/-- Modelled from the spec: `SentenceSegmenter.segment` as described in
§4.3 and claim C3 (boundary continuation class without `)`). -/
def specSegment (text : PyStr) : List PyStr := segmentWithCls specBoundaryCls text

/-- Modelled from the spec, amended: the same with `)` in the class. -/
def specSegmentAmended (text : PyStr) : List PyStr := segmentWithCls specBoundaryClsAmended text

/-! ### SentenceScorer (`_score_sentence`, app.py 123-158) -/

/-- `SECTION_PATTERNS["financials"]` (app.py 124): literal alternatives. -/
def financialsPats : List PyStr :=
  ["revenue", "ebit", "ebitda", "pat", "profit", "loss", "income", "balance sheet",
    "cash flow", "financial highlight"].map (fun s => s.toList)

/-- `SECTION_PATTERNS["risks"]` (app.py 125). -/
def risksPats : List PyStr :=
  ["risk", "outlook", "challenge", "headwind", "uncertaint"].map (fun s => s.toList)

/-- `SECTION_PATTERNS["strategy"]` (app.py 126). -/
def strategyPats : List PyStr :=
  ["strategy", "strategic", "priority", "roadmap", "growth", "investment", "innovation",
    "market", "product", "segment"].map (fun s => s.toList)

/-- The domain-signal alternation of app.py line 154. -/
def domainPats : List PyStr :=
  ["yoy", "qoq", "guidance", "margin", "dividend", "order book", "backlog", "capex",
    "opex", "free cash"].map (fun s => s.toList)

/-- The boilerplate-penalty alternation of app.py line 156. -/
def boilerPats : List PyStr :=
  ["forward-looking", "statutory", "notes to accounts", "auditor", "secretarial"].map
    (fun s => s.toList)

/-- The `[\d,\.]` continuation class of the numeric-token regex. -/
def isNumTokChar (c : Char) : Bool := c.isDigit || c == ',' || c == '.'

/-- Word-boundary test after `j` consumed characters of the candidate run
`r` (first non-run character `after` follows the run).  `\b` holds iff
exactly one neighbour is a word character. -/
def numBoundaryAt (r : List Char) (after : Option Char) (j : Nat) : Bool :=
  let lastW := match r[j-1]? with | some ch => pyIsWord ch | none => false
  let nextW := match r[j]? with
    | some ch => pyIsWord ch
    | none => match after with | some d => pyIsWord d | none => false
  lastW != nextW

/-- Greedy-with-backtracking match length for `\d[\d,\.]*\b` against the
run `r` (which starts with a digit): the largest `j ≥ 1` whose end
position is a word boundary. -/
def numMatchLen (r : List Char) (after : Option Char) : Option Nat :=
  ((List.range r.length).reverse.map (fun k => k + 1)).find? (numBoundaryAt r after)

/-- Count non-overlapping matches of `re.findall(r"\b\d[\d,\.]*\b", s)`,
scanning left to right and tracking whether the previous character is a
word character (for the leading `\b`). -/
def countNumAux : Nat → Bool → List Char → Nat
  | _, _, [] => 0
  | n+1, _, c :: rest => countNumAux n (pyIsWord c) rest
  | 0, prevW, c :: rest =>
    if !prevW && c.isDigit then
      let r := (c :: rest).takeWhile isNumTokChar
      let after := ((c :: rest).drop r.length).head?
      match numMatchLen r after with
      | some j => 1 + countNumAux (j - 1) (pyIsWord c) rest
      | none => countNumAux 0 (pyIsWord c) rest
    else countNumAux 0 (pyIsWord c) rest

/-- `len(re.findall(r"\b\d[\d,\.]*\b", s))`. -/
def countNumerics (s : PyStr) : Nat := countNumAux 0 false s

/-- `_score_sentence` (app.py 140-158).  Every weight in the source is a
multiple of 0.1 and the float arithmetic there is a sum of at most a few
dozen such terms, so the score is embedded exactly as an integer count of
tenths (1.0 → 10, 0.5 → 5, 0.3 → 3, cap 3.0 → 30, 0.7 → 7, 0.6 → 6,
0.8 → 8): an order-preserving exact rescaling. -/
def _score_sentence (s : PyStr) : ℤ :=
  let length := (pySplitWs s).length
  let base : ℤ := if 12 ≤ length ∧ length ≤ 40 then 10 else if 8 < length then 5 else 0
  let numScore : ℤ := min 30 (3 * (countNumerics s : ℤ))
  let sec : ℤ :=
    (if anyContainsCI financialsPats s then (7 : ℤ) else 0) +
    (if anyContainsCI risksPats s then (7 : ℤ) else 0) +
    (if anyContainsCI strategyPats s then (7 : ℤ) else 0)
  let dom : ℤ := if anyContainsCI domainPats s then 6 else 0
  let pen : ℤ := if anyContainsCI boilerPats s then 8 else 0
  base + numScore + sec + dom - pen

/-- `_score_sentence` with the domain-signal branch (app.py 154-155)
removed: the score the other terms alone produce (same tenth-scaling).
Used to state claim C4. -/
def scoreOtherTerms (s : PyStr) : ℤ :=
  let length := (pySplitWs s).length
  let base : ℤ := if 12 ≤ length ∧ length ≤ 40 then 10 else if 8 < length then 5 else 0
  let numScore : ℤ := min 30 (3 * (countNumerics s : ℤ))
  let sec : ℤ :=
    (if anyContainsCI financialsPats s then (7 : ℤ) else 0) +
    (if anyContainsCI risksPats s then (7 : ℤ) else 0) +
    (if anyContainsCI strategyPats s then (7 : ℤ) else 0)
  let pen : ℤ := if anyContainsCI boilerPats s then 8 else 0
  base + numScore + sec - pen

/-- Modelled from the spec: the finance-operational terms listed in §4.4
and claim C4, spelled out. -/
def specDomainTerms : List PyStr :=
  ["year-over-year", "quarter-over-quarter", "guidance", "margin", "dividend",
    "order book", "backlog", "capital expenditure", "operating expenditure",
    "free cash flow"].map (fun s => s.toList)

/-! ### Summarizer (`_pick_top_sentences`, `summarize_text`, app.py 161-195) -/

/-- The normalized deduplication key: `re.sub(r"\W+", " ", s.lower()).strip()`. -/
def normKey (s : PyStr) : PyStr :=
  pyStrip (collapseRuns (fun c => !pyIsWord c) ' ' (s.map pyLower))

/-- The dedup loop of `_pick_top_sentences` (app.py 163-169): keep a
sentence when its key is non-empty and unseen; first occurrence wins. -/
def dedupKeys (seen : List PyStr) : List PyStr → List PyStr
  | [] => []
  | s :: rest =>
    let k := normKey s
    if k ≠ [] ∧ k ∉ seen then s :: dedupKeys (k :: seen) rest
    else dedupKeys seen rest

/-- Comparison used by `scored.sort(key=lambda t: t[1], reverse=True)`:
`a` may precede `b` iff `a`'s score is at least `b`'s.  Python's sort is
stable, and the stable descending sort is computed by insertion sort on
this relation. -/
def scoreGE (a b : PyStr × ℤ) : Prop := b.2 ≤ a.2

instance : DecidableRel scoreGE := fun a b => inferInstanceAs (Decidable (b.2 ≤ a.2))

instance : IsTotal (PyStr × ℤ) scoreGE := ⟨fun a b => le_total b.2 a.2⟩

instance : IsTrans (PyStr × ℤ) scoreGE := ⟨fun _ _ _ h1 h2 => le_trans h2 h1⟩

/-- `_pick_top_sentences` (app.py 161-172). -/
def _pick_top_sentences (all_text : PyStr) (max_sentences : Nat) : List PyStr :=
  let sentences := _split_sentences all_text
  let unique := dedupKeys [] sentences
  let scored := unique.map (fun s => (s, _score_sentence s))
  ((List.insertionSort scoreGE scored).take max_sentences).map Prod.fst

/-- The chunking loop of `summarize_text` (app.py 179-182): groups of 3
consecutive pages joined with `"\n\n"`. -/
def chunkPages : List PyStr → List PyStr
  | [] => []
  | [p] => [joinSep ['\n', '\n'] [p]]
  | [p, q] => [joinSep ['\n', '\n'] [p, q]]
  | p :: q :: r :: rest => joinSep ['\n', '\n'] [p, q, r] :: chunkPages rest

/-- The candidate pool `all_points` (app.py 184-186). -/
def allPoints (pages : List PyStr) : List PyStr :=
  ((chunkPages pages).map (fun chunk => _pick_top_sentences chunk 7)).flatten

/-- `top_points` (app.py 188-190): re-score the pool, stable-sort by
score descending, take 12. -/
def topPoints (pages : List PyStr) : List PyStr :=
  ((List.insertionSort scoreGE ((allPoints pages).map (fun s => (s, _score_sentence s)))).take
    12).map Prod.fst

/-- The result record of `summarize_text`. -/
structure SummaryResult where
  summary : PyStr
  key_points : List PyStr
deriving DecidableEq

/-- `summarize_text` (app.py 175-195). -/
def summarize_text (pages : List PyStr) : SummaryResult :=
  if pages.isEmpty then ⟨[], []⟩
  else
    let chunks := chunkPages pages
    let combined_first :=
      if !chunks.isEmpty then joinSep ['\n', '\n'] (chunks.take 3)
      else joinSep ['\n', '\n'] (pages.take 3)
    ⟨joinSep [' '] (_pick_top_sentences combined_first 8), topPoints pages⟩

/-! ### PageExtractor (`extract_pages_text`, app.py 103-118)

The two whole-document extractors `_extract_text_pymupdf` and
`_extract_text_pdfminer` wrap external libraries (PyMuPDF, pdfminer.six,
pytesseract); their availability and behaviour are modelled as an
environment.  `extract_pages_text` itself performs no filesystem writes;
the event trace records which backends were invoked (and would record
writes, which only the out-of-core report writer performs). -/

/-- The fatal failures of `extract_pages_text`: the `assert os.path.isfile`
on line 104 (`NotFoundError` in the spec's taxonomy) and the
`RuntimeError` on line 117 (`ExtractionFailedError`). -/
inductive ExtractErr where
  | notFound
  | extractionFailed
deriving DecidableEq

/-- Observable effects of `extract_pages_text`. -/
inductive ExtractEvent where
  | fitzCall
  | pdfminerCall
  | fsWrite
deriving DecidableEq

/-- The runtime environment of `extract_pages_text`: whether the path
names a regular existing file, which backend modules imported, and what
each whole-document extraction attempt would produce (`raises = true`
models the `except Exception` arms on lines 109 and 114). -/
structure ExtractEnv where
  isFile : Bool
  fitzAvailable : Bool
  fitzRaises : Bool
  fitzPages : List PyStr
  pdfminerAvailable : Bool
  pdfminerRaises : Bool
  pdfminerPages : List PyStr

/-- `extract_pages_text` (app.py 103-118) over the environment, returning
the result together with the trace of backend calls. -/
def extract_pages_text (env : ExtractEnv) : Except ExtractErr (List PyStr) × List ExtractEvent :=
  if !env.isFile then (Except.error ExtractErr.notFound, [])
  else
    let fst :=
      if env.fitzAvailable then
        (if env.fitzRaises then [] else env.fitzPages, [ExtractEvent.fitzCall])
      else ([], [])
    let snd :=
      if fst.1.isEmpty && env.pdfminerAvailable then
        (if env.pdfminerRaises then [] else env.pdfminerPages,
          fst.2 ++ [ExtractEvent.pdfminerCall])
      else fst
    if snd.1.isEmpty then (Except.error ExtractErr.extractionFailed, snd.2)
    else (Except.ok snd.1, snd.2)

/-- Whether a result is the not-found failure. -/
def isNotFound : Except ExtractErr (List PyStr) → Bool
  | Except.error ExtractErr.notFound => true
  | _ => false

/-- Environment for the missing-file scenario. -/
def envMissing : ExtractEnv := ⟨false, true, false, ["text".toList], true, false, []⟩

/-- Environment for an existing file where every backend fails. -/
def envPresent : ExtractEnv := ⟨true, true, true, [], true, true, []⟩

/-! ### Spec-modelled variants for claims C5 -/

/-- Modelled from the spec (claim C5): a line qualifies as boilerplate if
it is pure whitespace or has at most 2 characters, or is purely numeric,
or matches the boilerplate keywords, or contains a URL. -/
def specHFLine (ln : PyStr) : Bool :=
  (!ln.isEmpty && ln.all pyIsSpace) || decide (ln.length ≤ 2) || pyNumericLine ln ||
    kwSearchAux kwList none ln || urlSearch ln

/-- Modelled from the spec, amended: the pure-whitespace alternative is
dropped — a line qualifies only if it has at most 2 characters, or is
purely numeric, or matches the keywords, or contains a URL. -/
def specHFLineAmended (ln : PyStr) : Bool :=
  decide (ln.length ≤ 2) || pyNumericLine ln || kwSearchAux kwList none ln || urlSearch ln

/-- Modelled from the spec (claim C5): `stripHeadersFooters` with the
claim's per-line test. -/
def specStripHF (t : PyStr) : PyStr := stripHFWith specHFLine t

/-- Modelled from the spec, amended: `stripHeadersFooters` with the
amended per-line test. -/
def specStripHFAmended (t : PyStr) : PyStr := stripHFWith specHFLineAmended t

/-- Whether the text contains three consecutive newline characters
(the redex of the `\n{3,}` substitution). -/
def hasTriple : List Char → Bool
  | c1 :: c2 :: c3 :: rest =>
    (c1 == '\n' && c2 == '\n' && c3 == '\n') || hasTriple (c2 :: c3 :: rest)
  | _ => false

/-! ### Concrete inputs used by counterexamples and witnesses -/

/-- A single long sentence used to build duplicate-sentence documents. -/
def sentenceDup : PyStr := "Revenue grew strongly in the last quarter of the year.".toList

/-- Four pages in which the same sentence appears in two different chunks. -/
def pagesDup : List PyStr := [sentenceDup, [], [], sentenceDup]

/-- A one-page document. -/
def pagesOne : List PyStr := [sentenceDup]

/-- Text with a sentence boundary whose continuation character is `)`. -/
def textParen : PyStr :=
  "Aaaaaaaaaaaaaaaaaaaaaaaaaaaaaa. ) Bbbbbbbbbbbbbbbbbbbbbbbbbbbbbbbbb.".toList

/-- A sentence containing the spelled-out term "year-over-year" and none
of the abbreviations the source actually searches for. -/
def sentYoY : PyStr :=
  "Revenue grew strongly year-over-year across all regional business units.".toList

/-- A sentence containing the term "margin". -/
def sentMargin : PyStr :=
  "The operating margin improved to a new record high level this quarter.".toList

/-- A 9-line page whose first line is three spaces (pure whitespace, more
than 2 characters) and whose lines 2-4 are page numbers. -/
def pageWsHeader : PyStr :=
  ("   \n1\n2\n3\nAlpha beta gamma delta\nEpsilon zeta eta theta" ++
    "\nIota kappa lambda mu\nNu xi omicron rho\nSigma tau upsilon phi").toList

/-- A 2-line text, below the stripping threshold. -/
def pageTwoLines : PyStr := "first line of the page\nsecond line".toList

/-! ### Lemmas: `subCR` -/

theorem subCR_not_mem_cr (l : List Char) : '\r' ∉ subCR l := by
  induction l using subCR.induct with
  | case1 => simp [subCR]
  | case2 => simp [subCR]
  | case3 c h =>
    simp [subCR, h]
    exact fun e => h e.symm
  | case4 rest ih => simp [subCR]; exact ih
  | case5 c2 rest h ih =>
    simp [subCR, h]
    exact ih
  | case6 c1 c2 rest h ih =>
    simp [subCR, h]
    exact ⟨fun e => h e.symm, ih⟩

theorem subCR_eq_self (l : List Char) (h : '\r' ∉ l) : subCR l = l := by
  induction l using subCR.induct with
  | case1 => simp [subCR]
  | case2 => simp at h
  | case3 c hc => simp [subCR, hc]
  | case4 rest ih => simp at h
  | case5 c2 rest hc ih => simp at h
  | case6 c1 c2 rest hc ih =>
    simp only [List.mem_cons, not_or] at h
    simp [subCR, hc, ih (by simp [h.2.1, h.2.2])]

/-! ### Lemmas: `collapseRuns` -/

theorem collapseRuns_eq_self (p : Char → Bool) (r : Char) (l : List Char)
    (h : ∀ c ∈ l, p c = false) : collapseRuns p r l = l := by
  induction l using collapseRuns.induct p r with
  | case1 => simp [collapseRuns]
  | case2 c hc => have := h c (by simp); simp [hc] at this
  | case3 c hc => simp [collapseRuns, hc]
  | case4 c1 c2 rest h1 h2 ih => have := h c1 (by simp); simp [h1] at this
  | case5 c1 c2 rest h1 h2 ih => have := h c1 (by simp); simp [h1] at this
  | case6 c1 c2 rest h1 ih =>
    simp only [collapseRuns, if_neg h1]
    have := ih (fun c hc => h c (by simp [hc]))
    simp [this]

theorem mem_collapseRuns (p : Char → Bool) (r : Char) (l : List Char) (c : Char)
    (h : c ∈ collapseRuns p r l) : c = r ∨ (c ∈ l ∧ p c = false) := by
  induction l using collapseRuns.induct p r with
  | case1 => simp [collapseRuns] at h
  | case2 d hd =>
    simp [collapseRuns, hd] at h
    exact Or.inl h
  | case3 d hd =>
    simp [collapseRuns, hd] at h
    exact Or.inr ⟨by simp [h], by simp only [h]; exact Bool.of_not_eq_true hd⟩
  | case4 c1 c2 rest h1 h2 ih =>
    simp only [collapseRuns, if_pos h1, if_pos h2] at h
    rcases ih h with e | ⟨hm, hp⟩
    · exact Or.inl e
    · exact Or.inr ⟨by simp [hm], hp⟩
  | case5 c1 c2 rest h1 h2 ih =>
    simp only [collapseRuns, if_pos h1, if_neg h2, List.mem_cons] at h
    rcases h with e | h
    · exact Or.inl e
    · rcases ih h with e | ⟨hm, hp⟩
      · exact Or.inl e
      · exact Or.inr ⟨by simp [hm], hp⟩
  | case6 c1 c2 rest h1 ih =>
    simp only [collapseRuns, if_neg h1, List.mem_cons] at h
    rcases h with e | h
    · exact Or.inr ⟨by simp [e], by simp only [e]; exact Bool.of_not_eq_true h1⟩
    · rcases ih h with e | ⟨hm, hp⟩
      · exact Or.inl e
      · exact Or.inr ⟨by simp [hm], hp⟩

/-! ### Lemmas: `subNl` and `hasTriple` -/

theorem subNl_head? (l : List Char) : (subNl l).head? = l.head? := by
  induction l using subNl.induct with
  | case1 => simp [subNl]
  | case2 c => simp [subNl]
  | case3 c1 c2 => simp [subNl]
  | case4 c1 c2 c3 rest h ih =>
    simp only [subNl, if_pos h, ih]
    simp [h.1, h.2.1]
  | case5 c1 c2 c3 rest h ih => simp [subNl, h]

theorem mem_subNl (l : List Char) (c : Char) (h : c ∈ subNl l) : c ∈ l := by
  induction l using subNl.induct with
  | case1 => simp [subNl] at h
  | case2 d => simpa [subNl] using h
  | case3 c1 c2 => simpa [subNl] using h
  | case4 c1 c2 c3 rest hc ih =>
    simp only [subNl, if_pos hc] at h
    exact List.mem_cons_of_mem c1 (ih h)
  | case5 c1 c2 c3 rest hc ih =>
    simp only [subNl, if_neg hc, List.mem_cons] at h
    rcases h with e | h
    · simp [e]
    · have := ih h
      simp only [List.mem_cons] at this ⊢
      tauto

theorem hasTriple_subNl (l : List Char) : hasTriple (subNl l) = false := by
  induction l using subNl.induct with
  | case1 => simp [subNl, hasTriple]
  | case2 c => simp [subNl, hasTriple]
  | case3 c1 c2 => simp [subNl, hasTriple]
  | case4 c1 c2 c3 rest h ih => simp only [subNl, if_pos h]; exact ih
  | case5 c1 c2 c3 rest h ih =>
    simp only [subNl, if_neg h]
    rcases hX : subNl (c2 :: c3 :: rest) with _ | ⟨x1, X1⟩
    · simp [hasTriple]
    · rcases hX1 : X1 with _ | ⟨x2, X2⟩
      · simp [hasTriple]
      · subst hX1
        have hx1 : x1 = c2 := by
          have h0 := subNl_head? (c2 :: c3 :: rest)
          rw [hX] at h0
          simpa using h0
        rw [hX] at ih
        rw [hasTriple, Bool.or_eq_false_iff]
        refine ⟨?_, ih⟩
        by_cases e1 : c1 = '\n'
        · by_cases e2 : c2 = '\n'
          · have e3 : ¬c3 = '\n' := fun e3 => h ⟨e1, e2, e3⟩
            have hx2 : x2 = c3 := by
              have hstep : subNl (c2 :: c3 :: rest) = c2 :: subNl (c3 :: rest) := by
                rcases rest with _ | ⟨r1, rs⟩
                · simp [subNl]
                · simp only [subNl]
                  rw [if_neg (by rintro ⟨_, e3', _⟩; exact e3 e3')]
              rw [hstep] at hX
              have hX2 : subNl (c3 :: rest) = x2 :: X2 := by
                injection hX with _ h2
              have h5 := subNl_head? (c3 :: rest)
              rw [hX2] at h5
              simpa using h5
            simp [hx2, e3]
          · simp [hx1, e2]
        · simp [e1]

theorem subNl_eq_self (l : List Char) (h : hasTriple l = false) : subNl l = l := by
  induction l using subNl.induct with
  | case1 => simp [subNl]
  | case2 c => simp [subNl]
  | case3 c1 c2 => simp [subNl]
  | case4 c1 c2 c3 rest hc ih =>
    rw [hasTriple] at h
    simp [hc.1, hc.2.1, hc.2.2] at h
  | case5 c1 c2 c3 rest hc ih =>
    rw [hasTriple, Bool.or_eq_false_iff] at h
    simp [subNl, hc, ih h.2]

theorem hasTriple_append_right (a b : List Char) (h : hasTriple (a ++ b) = false) :
    hasTriple b = false := by
  induction a with
  | nil => simpa using h
  | cons c a ih =>
    apply ih
    rcases hab : a ++ b with _ | ⟨x1, t1⟩
    · simp [hab, hasTriple]
    · rcases ht1 : t1 with _ | ⟨x2, t2⟩
      · simp [hab, hasTriple]
      · subst ht1
        rw [List.cons_append, hab, hasTriple, Bool.or_eq_false_iff] at h
        exact h.2

theorem hasTriple_append_left (a b : List Char) (h : hasTriple (a ++ b) = false) :
    hasTriple a = false := by
  induction a using hasTriple.induct with
  | case1 c1 c2 c3 rest ih =>
    rw [List.cons_append, List.cons_append, List.cons_append, hasTriple,
      Bool.or_eq_false_iff] at h
    rw [hasTriple, Bool.or_eq_false_iff]
    refine ⟨h.1, ih ?_⟩
    rw [List.cons_append, List.cons_append]
    exact h.2
  | case2 l hl =>
    rcases l with _ | ⟨c1, _ | ⟨c2, _ | ⟨c3, rest⟩⟩⟩
    · simp [hasTriple]
    · simp [hasTriple]
    · simp [hasTriple]
    · exact absurd rfl (hl c1 c2 c3 rest)

/-! ### Lemmas: stripping -/

theorem dropWhile_idem (p : Char → Bool) (l : List Char) :
    (l.dropWhile p).dropWhile p = l.dropWhile p := by
  induction l with
  | nil => simp
  | cons c rest ih =>
    cases hc : p c
    · simp [List.dropWhile_cons, hc]
    · simp [List.dropWhile_cons, hc, ih]

theorem dropWhile_append_form (p : Char → Bool) (l : List Char) :
    ∃ t, l = t ++ l.dropWhile p := by
  induction l with
  | nil => exact ⟨[], rfl⟩
  | cons c rest ih =>
    cases hc : p c
    · exact ⟨[], by simp [List.dropWhile_cons, hc]⟩
    · rcases ih with ⟨t, ht⟩
      exact ⟨c :: t, by simp [List.dropWhile_cons, hc]; exact ht⟩

theorem pyRStrip_append_form (l : List Char) : ∃ t, l = pyRStrip l ++ t := by
  rcases dropWhile_append_form pyIsSpace l.reverse with ⟨t, ht⟩
  refine ⟨t.reverse, ?_⟩
  have := congrArg List.reverse ht
  simpa [pyRStrip] using this

theorem pyLStrip_head_not_space (l : List Char) :
    (pyLStrip l).head? = none ∨ ∃ c, (pyLStrip l).head? = some c ∧ pyIsSpace c = false := by
  induction l with
  | nil => simp [pyLStrip]
  | cons c rest ih =>
    cases hc : pyIsSpace c
    · exact Or.inr ⟨c, by simp [pyLStrip, List.dropWhile_cons, hc], hc⟩
    · simpa [pyLStrip, List.dropWhile_cons, hc] using ih

theorem dropWhile_eq_self_of_head (p : Char → Bool) (l : List Char)
    (h : l.head? = none ∨ ∃ c, l.head? = some c ∧ p c = false) : l.dropWhile p = l := by
  rcases l with _ | ⟨c, rest⟩
  · simp
  · rcases h with h | ⟨d, hd, hp⟩
    · simp at h
    · simp only [List.head?_cons, Option.some_inj] at hd
      subst hd
      simp [List.dropWhile_cons, hp]

theorem pyRStrip_idem (l : List Char) : pyRStrip (pyRStrip l) = pyRStrip l := by
  simp [pyRStrip, dropWhile_idem]

theorem dropWhile_cons_self_not (p : Char → Bool) (c : Char) (X : List Char)
    (h : (c :: X).dropWhile p = c :: X) : p c = false := by
  cases hc : p c
  · rfl
  · exfalso
    rw [List.dropWhile_cons] at h
    simp only [hc, if_true] at h
    have h1 := (List.dropWhile_sublist (l := X) p).length_le
    have h2 := congrArg List.length h
    simp at h2
    omega

theorem pyLStrip_pyRStrip_fixed (l : List Char) (h : pyLStrip l = l) :
    pyLStrip (pyRStrip l) = pyRStrip l := by
  rcases hR : pyRStrip l with _ | ⟨c, rest⟩
  · simp [pyLStrip]
  · rcases pyRStrip_append_form l with ⟨t, ht⟩
    rw [hR] at ht
    have hl : l = c :: (rest ++ t) := by simpa using ht
    have hc : pyIsSpace c = false := by
      apply dropWhile_cons_self_not pyIsSpace c (rest ++ t)
      rw [← hl]
      exact h
    simp [pyLStrip, List.dropWhile_cons, hc]

theorem pyStrip_idem (l : List Char) : pyStrip (pyStrip l) = pyStrip l := by
  unfold pyStrip
  have h1 : pyLStrip (pyLStrip l) = pyLStrip l := dropWhile_idem pyIsSpace l
  have h2 : pyLStrip (pyRStrip (pyLStrip l)) = pyRStrip (pyLStrip l) :=
    pyLStrip_pyRStrip_fixed (pyLStrip l) h1
  rw [h2, pyRStrip_idem]

theorem mem_pyStrip (l : List Char) (c : Char) (h : c ∈ pyStrip l) : c ∈ l := by
  unfold pyStrip at h
  rcases pyRStrip_append_form (pyLStrip l) with ⟨t, ht⟩
  rcases dropWhile_append_form pyIsSpace l with ⟨u, hu⟩
  have : c ∈ pyLStrip l := by
    rw [ht]
    exact List.mem_append_left t h
  rw [hu]
  exact List.mem_append_right u this

theorem hasTriple_pyStrip (l : List Char) (h : hasTriple l = false) :
    hasTriple (pyStrip l) = false := by
  unfold pyStrip
  rcases dropWhile_append_form pyIsSpace l with ⟨u, hu⟩
  have h1 : hasTriple (pyLStrip l) = false := by
    apply hasTriple_append_right u
    simp only [pyLStrip]
    rw [← hu]
    exact h
  rcases pyRStrip_append_form (pyLStrip l) with ⟨t, ht⟩
  apply hasTriple_append_left _ t
  rw [← ht]
  exact h1

/-- C7: for every raw text input `x`, `normalizeWhitespace` is idempotent:
`normalizeWhitespace (normalizeWhitespace x) = normalizeWhitespace x`. -/
theorem normalize_whitespace_idempotent (x : PyStr) :
    _normalize_whitespace (_normalize_whitespace x) = _normalize_whitespace x := by
  have hmem : ∀ c : Char, c ∈ _normalize_whitespace x →
      c = ' ' ∨ (c ∈ subCR x ∧ isTabNbsp c = false) := by
    intro c hc
    have h1 := mem_pyStrip _ _ hc
    have h2 := mem_subNl _ _ h1
    exact mem_collapseRuns isTabNbsp ' ' (subCR x) c h2
  have hcr : '\r' ∉ _normalize_whitespace x := by
    intro hc
    rcases hmem '\r' hc with e | ⟨hm, _⟩
    · exact absurd e (by decide)
    · exact subCR_not_mem_cr x hm
  have htab : ∀ c ∈ _normalize_whitespace x, isTabNbsp c = false := by
    intro c hc
    rcases hmem c hc with e | ⟨_, hp⟩
    · rw [e]; decide
    · exact hp
  have htr : hasTriple (_normalize_whitespace x) = false :=
    hasTriple_pyStrip _ (hasTriple_subNl _)
  show pyStrip (subNl (subTabs (subCR (_normalize_whitespace x)))) = _normalize_whitespace x
  rw [subCR_eq_self _ hcr]
  unfold subTabs
  rw [collapseRuns_eq_self isTabNbsp ' ' _ htab]
  rw [subNl_eq_self _ htr]
  exact pyStrip_idem _

/-! ### Lemmas: `splitLines` / `joinSep` -/

theorem splitLines_ne_nil (l : List Char) : splitLines l ≠ [] := by
  induction l with
  | nil => simp [splitLines]
  | cons c rest ih =>
    by_cases hc : c = '\n'
    · simp [splitLines, hc]
    · simp only [splitLines, if_neg hc]
      rcases h : splitLines rest with _ | ⟨w, ws⟩
      · simp
      · simp

theorem splitLines_length (l : List Char) :
    (splitLines l).length = l.count '\n' + 1 := by
  induction l with
  | nil => simp [splitLines]
  | cons c rest ih =>
    by_cases hc : c = '\n'
    · simp [splitLines, hc, List.count_cons, ih]
    · simp only [splitLines, if_neg hc]
      rcases h : splitLines rest with _ | ⟨w, ws⟩
      · exact absurd h (splitLines_ne_nil rest)
      · rw [h] at ih
        simp only [List.length_cons] at ih ⊢
        rw [List.count_cons]
        simp [hc, ih]

theorem splitLines_no_nl (l : List Char) : ∀ p ∈ splitLines l, '\n' ∉ p := by
  induction l with
  | nil => simp [splitLines]
  | cons c rest ih =>
    by_cases hc : c = '\n'
    · simp only [splitLines, if_pos hc]
      intro p hp
      simp only [List.mem_cons] at hp
      rcases hp with rfl | hp
      · simp
      · exact ih p hp
    · simp only [splitLines, if_neg hc]
      rcases h : splitLines rest with _ | ⟨w, ws⟩
      · exact absurd h (splitLines_ne_nil rest)
      · intro p hp
        simp only [List.mem_cons] at hp
        rcases hp with rfl | hp
        · have hw := ih w (by rw [h]; simp)
          simp only [List.mem_cons, not_or]
          exact ⟨fun e => hc e.symm, hw⟩
        · exact ih p (by rw [h]; simp [hp])

theorem splitLines_no_nl_single (p : List Char) (h : '\n' ∉ p) : splitLines p = [p] := by
  induction p with
  | nil => simp [splitLines]
  | cons c rest ih =>
    simp only [List.mem_cons, not_or] at h
    have hcne : ¬c = '\n' := fun e => h.1 e.symm
    simp only [splitLines, if_neg hcne]
    rw [ih h.2]

theorem splitLines_append_nl (p t : List Char) (h : '\n' ∉ p) :
    splitLines (p ++ '\n' :: t) = p :: splitLines t := by
  induction p with
  | nil => simp [splitLines]
  | cons c rest ih =>
    simp only [List.mem_cons, not_or] at h
    have hcne : ¬c = '\n' := fun e => h.1 e.symm
    simp only [List.cons_append, splitLines, if_neg hcne, List.append_eq]
    rw [ih h.2]

theorem splitLines_joinSep (L : List PyStr) (hne : L ≠ [])
    (h : ∀ p ∈ L, '\n' ∉ p) : splitLines (joinSep ['\n'] L) = L := by
  induction L with
  | nil => exact absurd rfl hne
  | cons p rest ih =>
    rcases rest with _ | ⟨q, rest'⟩
    · simp only [joinSep]
      exact splitLines_no_nl_single p (h p (by simp))
    · simp only [joinSep]
      have : p ++ ['\n'] ++ joinSep ['\n'] (q :: rest') = p ++ '\n' :: joinSep ['\n'] (q :: rest') := by
        simp
      rw [this, splitLines_append_nl p _ (h p (by simp))]
      rw [ih (by simp) (fun r hr => h r (by simp [hr]))]

theorem count_pyStrip_le (l : List Char) (c : Char) :
    (pyStrip l).count c ≤ l.count c := by
  unfold pyStrip
  rcases pyRStrip_append_form (pyLStrip l) with ⟨t, ht⟩
  rcases dropWhile_append_form pyIsSpace l with ⟨u, hu⟩
  calc (pyRStrip (pyLStrip l)).count c
      ≤ (pyRStrip (pyLStrip l)).count c + t.count c := Nat.le_add_right _ _
    _ = (pyLStrip l).count c := by
        conv_rhs => rw [ht]
        simp [List.count_append]
    _ ≤ u.count c + (pyLStrip l).count c := Nat.le_add_left _ _
    _ = l.count c := by
        conv_rhs => rw [hu]
        simp [List.count_append, pyLStrip]

theorem count_joinSep_nl (L : List PyStr) (hne : L ≠ []) (h : ∀ p ∈ L, '\n' ∉ p) :
    (joinSep ['\n'] L).count '\n' + 1 = L.length := by
  have h1 := splitLines_length (joinSep ['\n'] L)
  rw [splitLines_joinSep L hne h] at h1
  omega

/-! ### Line-count behaviour of `stripHFWith` -/

theorem lines_count_le (L : List PyStr) (hne : L ≠ []) (hnl : ∀ p ∈ L, '\n' ∉ p) :
    (splitLines (pyStrip (joinSep ['\n'] L))).length ≤ L.length := by
  rw [splitLines_length]
  have h1 := count_pyStrip_le (joinSep ['\n'] L) '\n'
  have h2 := count_joinSep_nl L hne hnl
  omega

theorem stripHFWith_lines (q : PyStr → Bool) (t : PyStr) :
    (splitLines (stripHFWith q t)).length ≤ (splitLines t).length ∧
    ((splitLines t).length ≤ 8 → stripHFWith q t = t) := by
  by_cases h8 : (splitLines t).length ≤ 2 * HEADER_FOOTER_MAX_LINES
  · constructor
    · simp [stripHFWith, h8]
    · intro _
      simp [stripHFWith, h8]
  · have h9 : 8 < (splitLines t).length := by
      simpa [HEADER_FOOTER_MAX_LINES] using h8
    constructor
    · simp only [stripHFWith, if_neg h8]
      split_ifs with h1 h2 h3
      all_goals
        refine le_trans (lines_count_le _ ?_ ?_) ?_
      all_goals try
        (apply List.ne_nil_of_length_pos
         simp only [List.length_take, List.length_drop, HEADER_FOOTER_MAX_LINES] at h9 ⊢
         omega)
      all_goals try
        (intro p hp
         refine splitLines_no_nl t p ?_
         first
         | exact hp
         | exact List.mem_of_mem_take hp
         | exact List.mem_of_mem_drop hp
         | exact List.mem_of_mem_drop (List.mem_of_mem_take hp))
      all_goals
        first
        | omega
        | (simp only [List.length_take, List.length_drop]; omega)
    · intro hle
      exfalso
      simp [HEADER_FOOTER_MAX_LINES] at h8
      omega

/-- C8: for every text, `stripHeadersFooters` never increases the line
count, and on a text of at most 8 lines it returns the input unchanged. -/
theorem strip_headers_footers_line_count (t : PyStr) :
    (splitLines (_strip_headers_footers t)).length ≤ (splitLines t).length ∧
    ((splitLines t).length ≤ 8 → _strip_headers_footers t = t) :=
  stripHFWith_lines hfLineOrShort t

/-- Witness for C8 at concrete inputs: the 2-line page is returned
unchanged, and the 9-line page does not gain lines. -/
theorem strip_headers_footers_line_count_witness :
    (splitLines pageTwoLines).length ≤ 8 ∧
    _strip_headers_footers pageTwoLines = pageTwoLines ∧
    (splitLines (_strip_headers_footers pageWsHeader)).length ≤
      (splitLines pageWsHeader).length :=
  ⟨by decide, (strip_headers_footers_line_count pageTwoLines).2 (by decide),
    (strip_headers_footers_line_count pageWsHeader).1⟩

/-! ### C5: the boilerplate line test -/

theorem hfLine_eq_specAmended (ln : PyStr) : hfLineOrShort ln = specHFLineAmended ln := by
  unfold hfLineOrShort specHFLineAmended is_header_footer_line
  cases pyNumericLine ln <;> cases kwSearchAux kwList none ln <;> cases urlSearch ln <;>
    cases decide (ln.length ≤ 2) <;> rfl

/-- C5 (amended): `_strip_headers_footers` behaves exactly as the spec's
§4.1 algorithm with the per-line test "at most 2 characters, or purely
numeric, or boilerplate keyword, or URL" (the pure-whitespace alternative
of the claim removed): on more than 8 lines the top block of 4 lines is
dropped iff every one of its lines passes that test, and independently
the bottom block of 4 lines. -/
theorem strip_headers_footers_eq_spec_amended (t : PyStr) :
    _strip_headers_footers t = specStripHFAmended t := by
  unfold _strip_headers_footers specStripHFAmended
  have h : hfLineOrShort = specHFLineAmended := funext hfLine_eq_specAmended
  rw [h]

/-- Counterexample to C5 as stated: `pageWsHeader` has 9 lines whose top
4 lines all satisfy the claim's test (line 1 is pure whitespace of length
3, lines 2-4 are page numbers), yet the code does not drop the top block,
because a pure-whitespace line of more than 2 characters fails every test
in `is_header_footer_line`. -/
theorem strip_headers_footers_spec_cex :
    8 < (splitLines pageWsHeader).length ∧
    ((splitLines pageWsHeader).take 4).all specHFLine = true ∧
    _strip_headers_footers pageWsHeader ≠ specStripHF pageWsHeader := by
  refine ⟨by decide, by decide, by decide⟩

/-! ### C3: sentence segmentation -/

theorem codeCls_eq_specAmended (c : Char) : codeBoundaryCls c = specBoundaryClsAmended c := by
  unfold codeBoundaryCls specBoundaryClsAmended
  cases decide ('A' ≤ c) <;> cases decide (c ≤ 'Z') <;> cases decide ('0' ≤ c) <;>
    cases decide (c ≤ '9') <;> cases c == '(' <;> cases c == ')' <;> rfl

/-- C3 (amended): `_split_sentences` splits exactly where a sentence-
terminal punctuation mark is followed by whitespace and then an uppercase
letter, a digit, an opening parenthesis, **or a closing parenthesis**
(the regex class `[A-Z(0-9)]` contains `)`); each candidate is
whitespace-collapsed and trimmed and candidates shorter than 30
characters are discarded. -/
theorem split_sentences_eq_spec_amended (t : PyStr) :
    _split_sentences t = specSegmentAmended t := by
  unfold _split_sentences specSegmentAmended
  have h : codeBoundaryCls = specBoundaryClsAmended := funext codeCls_eq_specAmended
  rw [h]

/-- Counterexample to C3 as stated: on `textParen` the code splits before
`) ...` (the closing parenthesis is in the look-ahead class), while the
split positions described by the claim produce a single sentence. -/
theorem split_sentences_spec_cex : _split_sentences textParen ≠ specSegment textParen := by
  decide

/-! ### Lemmas: deduplication and sorting -/

theorem dedupKeys_nodup (l : List PyStr) (seen : List PyStr) :
    ((dedupKeys seen l).map normKey).Nodup ∧
    ∀ k ∈ (dedupKeys seen l).map normKey, k ∉ seen := by
  induction l generalizing seen with
  | nil => simp [dedupKeys]
  | cons s rest ih =>
    by_cases hc : normKey s ≠ [] ∧ normKey s ∉ seen
    · simp only [dedupKeys, if_pos hc, List.map_cons]
      rcases ih (normKey s :: seen) with ⟨ihn, ihs⟩
      constructor
      · refine List.Nodup.cons ?_ ihn
        intro hmem
        exact ihs (normKey s) hmem (by simp)
      · intro k hk
        simp only [List.mem_cons] at hk
        rcases hk with rfl | hk
        · exact hc.2
        · have := ihs k hk
          simp only [List.mem_cons, not_or] at this
          exact this.2
    · simp only [dedupKeys, if_neg hc]
      exact ih seen

theorem pick_top_nodup_keys (t : PyStr) (k : Nat) :
    ((_pick_top_sentences t k).map normKey).Nodup := by
  unfold _pick_top_sentences
  have hperm : List.Perm (List.insertionSort scoreGE
      ((dedupKeys [] (_split_sentences t)).map (fun s => (s, _score_sentence s))))
      ((dedupKeys [] (_split_sentences t)).map (fun s => (s, _score_sentence s))) :=
    List.perm_insertionSort _ _
  have hfst : List.Perm ((List.insertionSort scoreGE
      ((dedupKeys [] (_split_sentences t)).map (fun s => (s, _score_sentence s)))).map Prod.fst)
      (dedupKeys [] (_split_sentences t)) := by
    have h1 := hperm.map Prod.fst
    have h2 : (Prod.fst ∘ fun s : PyStr => (s, _score_sentence s)) = id := rfl
    rw [List.map_map, h2, List.map_id] at h1
    exact h1
  have hkeys : List.Perm (((List.insertionSort scoreGE
      ((dedupKeys [] (_split_sentences t)).map (fun s => (s, _score_sentence s)))).map
      Prod.fst).map normKey) ((dedupKeys [] (_split_sentences t)).map normKey) :=
    hfst.map normKey
  have hnodup : (((List.insertionSort scoreGE
      ((dedupKeys [] (_split_sentences t)).map (fun s => (s, _score_sentence s)))).map
      Prod.fst).map normKey).Nodup :=
    (hkeys.nodup_iff).mpr (dedupKeys_nodup (_split_sentences t) []).1
  refine List.Nodup.sublist ?_ hnodup
  apply List.Sublist.map
  apply List.Sublist.map
  exact List.take_sublist _ _

theorem sorted_score_take (l : List (PyStr × ℤ))
    (hl : ∀ p ∈ l, p.2 = _score_sentence p.1) (k : Nat) :
    List.Sorted (fun a b : PyStr => _score_sentence b ≤ _score_sentence a)
      (((List.insertionSort scoreGE l).take k).map Prod.fst) := by
  have hsorted : List.Sorted scoreGE (List.insertionSort scoreGE l) :=
    List.sorted_insertionSort scoreGE l
  have hmem : ∀ p ∈ List.insertionSort scoreGE l, p.2 = _score_sentence p.1 := by
    intro p hp
    exact hl p ((List.perm_insertionSort scoreGE l).mem_iff.mp hp)
  have hsorted2 : List.Pairwise (fun a b : PyStr × ℤ =>
      _score_sentence b.1 ≤ _score_sentence a.1) (List.insertionSort scoreGE l) := by
    refine List.Pairwise.imp_of_mem ?_ hsorted
    intro a b ha hb hab
    rw [← hmem a ha, ← hmem b hb]
    exact hab
  have htake : List.Pairwise (fun a b : PyStr × ℤ =>
      _score_sentence b.1 ≤ _score_sentence a.1) ((List.insertionSort scoreGE l).take k) :=
    hsorted2.sublist (List.take_sublist _ _)
  rw [List.Sorted, List.pairwise_map]
  exact htake

/-! ### Summarizer claim theorems -/

theorem chunkPages_length (l : List PyStr) :
    (chunkPages l).length = (l.length + 2) / 3 := by
  induction l using chunkPages.induct with
  | case1 => simp [chunkPages]
  | case2 p => simp [chunkPages]
  | case3 p q => simp [chunkPages]
  | case4 p q r rest ih =>
    simp only [chunkPages, List.length_cons, ih]
    omega

theorem pick_top_length_le (t : PyStr) (k : Nat) :
    (_pick_top_sentences t k).length ≤ k := by
  unfold _pick_top_sentences
  simp only [List.length_map, List.length_take]
  exact min_le_left _ _

theorem allPoints_length_le (pages : List PyStr) :
    (allPoints pages).length ≤ 7 * (chunkPages pages).length := by
  unfold allPoints
  induction chunkPages pages with
  | nil => simp
  | cons c rest ih =>
    simp only [List.map_cons, List.flatten_cons, List.length_append, List.length_cons]
    have := pick_top_length_le c 7
    omega

/-- C1 (amended): `key_points` has at most 12 entries and is sorted
non-increasing by the sentence score, and within each chunk's
contribution no two candidates share a normalized key.  (Deduplication is
per chunk only: the same sentence occurring in different chunks may
appear several times in `key_points`.) -/
theorem key_points_bounded_sorted_chunkdedup (pages : List PyStr) :
    (summarize_text pages).key_points.length ≤ 12 ∧
    List.Sorted (fun a b : PyStr => _score_sentence b ≤ _score_sentence a)
      (summarize_text pages).key_points ∧
    ∀ chunk ∈ chunkPages pages, ((_pick_top_sentences chunk 7).map normKey).Nodup := by
  refine ⟨?_, ?_, fun chunk _ => pick_top_nodup_keys chunk 7⟩
  · unfold summarize_text
    split_ifs
    · simp
    · simp only [topPoints, List.length_map, List.length_take]
      exact le_trans (min_le_left _ _) (le_refl _)
  · unfold summarize_text
    split_ifs
    · simp
    · simp only [topPoints]
      exact sorted_score_take
        ((allPoints pages).map (fun s => (s, _score_sentence s)))
        (by
          intro p hp
          rcases List.mem_map.mp hp with ⟨s, _, rfl⟩
          rfl) 12

/-- Witness for C1 at a concrete document. -/
theorem key_points_bounded_sorted_chunkdedup_witness :
    joinSep ['\n', '\n'] [sentenceDup] ∈ chunkPages pagesOne ∧
    ((_pick_top_sentences (joinSep ['\n', '\n'] [sentenceDup]) 7).map normKey).Nodup ∧
    (summarize_text pagesOne).key_points.length ≤ 12 :=
  ⟨by decide,
    (key_points_bounded_sorted_chunkdedup pagesOne).2.2 _ (by decide),
    (key_points_bounded_sorted_chunkdedup pagesOne).1⟩

/-- Counterexample to C1 as stated: in `pagesDup` the same sentence is the
sole candidate of two different chunks, and both copies survive into
`key_points`, whose normalized keys are therefore not pairwise distinct. -/
theorem key_points_global_dedup_cex :
    ¬ (((summarize_text pagesDup).key_points.map normKey).Nodup) := by
  decide

/-- C2 (amended): the forward direction holds — on the empty page list
`summarize_text` returns an empty summary and no key points. -/
theorem summary_empty_of_pages_empty :
    summarize_text ([] : List PyStr) = ⟨[], []⟩ := rfl

/-- Counterexample to C2 as stated: the non-empty page list consisting of
one empty page also yields an empty summary, refuting the claimed
converse direction. -/
theorem summary_empty_iff_cex :
    (summarize_text [([] : PyStr)]).summary = [] ∧ [([] : PyStr)] ≠ ([] : List PyStr) := by
  constructor
  · decide
  · simp

/-- C9: `summarize_text` is total — it returns a `SummaryResult` on every
list of pages (the embedding of the source is a total function; no
operation in `summarize_text` or its helpers can fail). -/
theorem summarize_text_total (pages : List PyStr) :
    ∃ r : SummaryResult, summarize_text pages = r := ⟨_, rfl⟩

/-- C10: each chunk contributes at most 7 candidates, so `key_points` has
at most `7 * ceil(pages/3)` entries; for 3 or fewer pages at most 7. -/
theorem key_points_chunk_bound (pages : List PyStr) (h : pages ≠ []) :
    (summarize_text pages).key_points.length ≤ 7 * ((pages.length + 2) / 3) ∧
    (pages.length ≤ 3 → (summarize_text pages).key_points.length ≤ 7) := by
  have hlen : (summarize_text pages).key_points.length ≤ 7 * ((pages.length + 2) / 3) := by
    unfold summarize_text
    rw [if_neg (by simpa using h)]
    simp only [topPoints, List.length_map, List.length_take]
    have h1 : (List.insertionSort scoreGE
        ((allPoints pages).map (fun s => (s, _score_sentence s)))).length =
        (allPoints pages).length := by
      rw [(List.perm_insertionSort scoreGE _).length_eq, List.length_map]
    have h2 := allPoints_length_le pages
    rw [chunkPages_length] at h2
    omega
  refine ⟨hlen, fun h3 => ?_⟩
  have : 7 * ((pages.length + 2) / 3) ≤ 7 := by
    have : (pages.length + 2) / 3 ≤ 1 := by omega
    omega
  omega

/-- Witness for C10 at a one-page document. -/
theorem key_points_chunk_bound_witness :
    pagesOne ≠ [] ∧
    (summarize_text pagesOne).key_points.length ≤ 7 * ((pagesOne.length + 2) / 3) ∧
    (summarize_text pagesOne).key_points.length ≤ 7 :=
  ⟨by simp [pagesOne], (key_points_chunk_bound pagesOne (by simp [pagesOne])).1,
    (key_points_chunk_bound pagesOne (by simp [pagesOne])).2 (by decide)⟩

/-! ### C4: the domain-signal score term -/

/-- C4 (amended): the +0.6 domain-signal bonus (6 in the tenth-scaled
embedding) is added exactly when the sentence matches the source's
pattern `yoy|qoq|guidance|margin|dividend|order book|backlog|capex|opex|
free cash` (case-insensitive substring), not the spelled-out terms of the
claim. -/
theorem score_domain_bonus_amended (s : PyStr)
    (h : anyContainsCI domainPats s = true) :
    _score_sentence s = scoreOtherTerms s + 6 := by
  unfold _score_sentence scoreOtherTerms
  rw [h]
  simp only [if_true]
  ring

/-- Witness for C4: a sentence containing "margin" gets the bonus. -/
theorem score_domain_bonus_amended_witness :
    anyContainsCI domainPats sentMargin = true ∧
    _score_sentence sentMargin = scoreOtherTerms sentMargin + 6 :=
  ⟨by decide, score_domain_bonus_amended sentMargin (by decide)⟩

/-- Counterexample to C4 as stated: `sentYoY` contains the spelled-out
finance-operational term "year-over-year" from the claim's list, yet its
score carries no domain-signal bonus — the source's regex searches for
the abbreviation "yoy", which does not occur. -/
theorem score_domain_bonus_cex :
    anyContainsCI specDomainTerms sentYoY = true ∧
    _score_sentence sentYoY ≠ scoreOtherTerms sentYoY + 6 := by
  constructor
  · decide
  · decide

/-! ### C6: extraction failure behaviour -/

/-- C6: if the path is not a regular existing file, `extract_pages_text`
fails with the not-found error immediately — no backend is invoked and no
filesystem event occurs; if the path is a regular existing file, the
result is never the not-found error. -/
theorem extract_not_found_behavior (env : ExtractEnv) :
    (env.isFile = false → extract_pages_text env = (Except.error ExtractErr.notFound, [])) ∧
    (env.isFile = true → isNotFound (extract_pages_text env).1 = false) := by
  constructor
  · intro h
    simp [extract_pages_text, h]
  · intro h
    unfold extract_pages_text
    simp only [h, Bool.not_true]
    split_ifs <;> simp_all [isNotFound]

/-- Witness for C6: a missing file yields exactly the not-found failure
with an empty event trace, and a present file (whose backends all fail)
does not yield not-found. -/
theorem extract_not_found_behavior_witness :
    extract_pages_text envMissing = (Except.error ExtractErr.notFound, []) ∧
    isNotFound (extract_pages_text envPresent).1 = false :=
  ⟨(extract_not_found_behavior envMissing).1 rfl,
    (extract_not_found_behavior envPresent).2 rfl⟩
